import Mathlib

/-!
Verification development for the Product Identification & Contextual
Retrieval Engine: a shallow embedding of `app/services/matcher_service.py`
and `app/services/rag_service.py` (with the configuration defaults of
`app/config.py`), together with theorems settling the specified properties.

Modelling conventions:
* Python floats are modelled as rationals (`ℚ`); `round(x, 3)` is modelled
  as decimal rounding half-to-even (Python's rounding mode).
* Python strings are Lean `String`s; `str.split()` (`pySplit`) splits on
  whitespace runs and drops empty pieces; `str.strip()` is `pyStrip`;
  `str.lower()` is `pyLower`, character-wise lowering (the data of
  interest is ASCII).  All string helpers recurse structurally over
  `String.data` so that concrete runs evaluate inside the kernel.
* `rapidfuzz.fuzz.token_set_ratio` is embedded following the library's
  reference implementation: both inputs are split into sorted, deduplicated
  token views; if either is empty the score is 0; if the intersection is
  nonempty and one difference is empty the score is 100; otherwise the
  score is the maximum of the Indel ratio of the joined differences and
  the two arithmetically-computed sect/sect+diff ratios.
* Fallible Python code (a `KeyError`, an `IndexError`, a swallowed
  exception) is modelled with `Except`.
-/

namespace ProductIntel

/-! Exact rational arithmetic.  The library's `Rat.add`, `Rat.mul`, `Rat.div`
and `Rat.sub` are `@[irreducible]`, so a term built from them cannot be
evaluated by `decide`.  The embedding therefore computes with the
kernel-reducible forms below; `qAdd_eq`, `qSub_eq`, `qMul_eq`, `qDiv_eq`
and `qMax_eq` prove once and for all that they are the field operations
of `ℚ`, so every theorem may be read with ordinary `+ - * / max`. -/

/-- Addition on `ℚ` in kernel-reducible form. -/
def qAdd (a b : ℚ) : ℚ :=
  Rat.divInt (a.num * b.den + b.num * a.den) (a.den * b.den)

/-- Subtraction on `ℚ` in kernel-reducible form. -/
def qSub (a b : ℚ) : ℚ :=
  mkRat (a.num * b.den - b.num * a.den) (a.den * b.den)

/-- Multiplication on `ℚ` in kernel-reducible form. -/
def qMul (a b : ℚ) : ℚ :=
  Rat.divInt (a.num * b.num) (a.den * b.den)

/-- Division on `ℚ` in kernel-reducible form (division by zero gives 0,
as in `ℚ`). -/
def qDiv (a b : ℚ) : ℚ :=
  Rat.divInt (a.num * b.den) (a.den * b.num)

/-- `max` on `ℚ` in kernel-reducible form. -/
def qMax (a b : ℚ) : ℚ :=
  if a ≤ b then b else a

/-- Worker for `pySplit`: walk the characters, accumulating the current
word (reversed); whitespace closes a word, empty words are not emitted. -/
def pySplitAux : List Char → List Char → List String
  | [], acc => if acc.isEmpty then [] else [String.mk acc.reverse]
  | c :: cs, acc =>
    if c.isWhitespace then
      if acc.isEmpty then pySplitAux cs [] else String.mk acc.reverse :: pySplitAux cs []
    else pySplitAux cs (c :: acc)

/-- Python `content.split()`: split on whitespace runs, no empty pieces. -/
def pySplit (s : String) : List String :=
  pySplitAux s.data []

/-- Python `s.lower()` (character-wise; the data of interest is ASCII). -/
def pyLower (s : String) : String :=
  String.mk (s.data.map Char.toLower)

/-- Python `s.strip()`: whitespace removed from both ends. -/
def pyStrip (s : String) : String :=
  String.mk (((s.data.dropWhile Char.isWhitespace).reverse.dropWhile Char.isWhitespace).reverse)

/-- Python `s[:n]` (prefix of `n` characters). -/
def pyTake (s : String) (n : Nat) : String :=
  String.mk (s.data.take n)

/-- Python `' '.join(ws)`. -/
def joinSpace : List String → String
  | [] => ""
  | w :: ws => ws.foldl (fun acc x => acc ++ " " ++ x) w

/-- Lexicographic order on character lists by code point, the order in which
token views are sorted. -/
def charListLt : List Char → List Char → Bool
  | [], [] => false
  | [], _ :: _ => true
  | _ :: _, [] => false
  | a :: s, b :: t =>
    if a.toNat < b.toNat then true
    else if b.toNat < a.toNat then false
    else charListLt s t

/-- Lexicographic order on strings by code point. -/
def strLt (x y : String) : Bool :=
  charListLt x.data y.data

/-- Insert a token into a sorted, duplicate-free token list (rapidfuzz keeps
its token views sorted and deduplicated). -/
def insertToken (x : String) : List String → List String
  | [] => [x]
  | y :: ys => if x = y then y :: ys else if strLt x y then x :: y :: ys else y :: insertToken x ys

/-- The sorted, deduplicated whitespace tokens of a string (rapidfuzz's
splitted-sentence view of one side of a comparison). -/
def sortedTokens (s : String) : List String :=
  (pySplit s).foldl (fun acc w => insertToken w acc) []

/-- Inner loop of `lcsLen`: `lcsInner lcsS a t` computes the LCS length of
`a :: s` and `t`, where `lcsS` computes LCS lengths against `s`. -/
def lcsInner (lcsS : List Char → Nat) (a : Char) : List Char → Nat
  | [] => 0
  | b :: t => if a = b then lcsS t + 1 else max (lcsInner lcsS a t) (lcsS (b :: t))

/-- Length of a longest common subsequence, the quantity behind rapidfuzz's
Indel distance: `dist = |s| + |t| - 2 * lcs`. -/
def lcsLen : List Char → List Char → Nat
  | [], _ => 0
  | a :: s, t => lcsInner (lcsLen s) a t

/-- Python `len` of a string (code points). -/
def strLen (s : String) : Nat :=
  s.data.length

/-- Membership of a string in a list of strings. -/
def memStr (x : String) (l : List String) : Bool :=
  l.any (fun y => decide (x = y))

/-- `rapidfuzz.fuzz.ratio`: the normalized Indel similarity scaled to
[0, 100]; two empty strings score 100. -/
def fuzzRatio (s t : String) : ℚ :=
  if strLen s + strLen t = 0 then 100
  else qDiv (qMul 200 (lcsLen s.data t.data : ℚ)) ((strLen s + strLen t : ℕ) : ℚ)

/-- `rapidfuzz.fuzz.token_set_ratio`.  Tokens are sorted and deduplicated;
set operations, joins and the arithmetic shortcut for the sect/sect+diff
ratios follow the library's implementation. -/
def token_set_ratio (s1 s2 : String) : ℚ :=
  let a := sortedTokens s1
  let b := sortedTokens s2
  if a.isEmpty || b.isEmpty then 0
  else
    let sect := a.filter (fun t => memStr t b)
    let dab := a.filter (fun t => !(memStr t b))
    let dba := b.filter (fun t => !(memStr t a))
    if !sect.isEmpty && (dab.isEmpty || dba.isEmpty) then 100
    else
      let dabJ := joinSpace dab
      let dbaJ := joinSpace dba
      let abLen := strLen dabJ
      let baLen := strLen dbaJ
      let sectLen := strLen (joinSpace sect)
      let sectMark : Nat := if sectLen = 0 then 0 else 1
      let sectAbLen : Nat := sectLen + sectMark + abLen
      let sectBaLen : Nat := sectLen + sectMark + baLen
      let result := fuzzRatio dabJ dbaJ
      if sectLen = 0 then result
      else
        let sectAbDist : Nat := 1 + abLen
        let sectBaDist : Nat := 1 + baLen
        let sectAbRatio := qMul 100 (qSub 1 (qDiv (sectAbDist : ℚ) ((sectLen + sectAbLen : ℕ) : ℚ)))
        let sectBaRatio := qMul 100 (qSub 1 (qDiv (sectBaDist : ℚ) ((sectLen + sectBaLen : ℕ) : ℚ)))
        qMax result (qMax sectAbRatio sectBaRatio)

/-- The application settings of `app/config.py` that the core consumes,
with their default values. -/
structure Settings where
  min_confidence : ℚ
  top_k_matches : Nat
  top_k_retrieval : Nat
  chunk_size : Nat
  chunk_overlap : Nat
  title_weight : ℚ
  model_weight : ℚ
  brand_weight : ℚ
deriving DecidableEq

/-- The global `settings` instance (all defaults): `min_confidence = 0.6`,
weights `0.5 / 0.3 / 0.2`, written as reducible exact rationals. -/
def settings : Settings :=
  { min_confidence := Rat.divInt 3 5
    top_k_matches := 3
    top_k_retrieval := 5
    chunk_size := 300
    chunk_overlap := 75
    title_weight := Rat.divInt 1 2
    model_weight := Rat.divInt 3 10
    brand_weight := Rat.divInt 1 5 }

/-- One row of `data/catalog.csv`. -/
structure CatalogRow where
  product_id : String
  title : String
  model : String
  brand : String
deriving DecidableEq

/-- The in-memory catalog of `MatcherService`.  `_load_catalog` swallows any
load exception and returns a bare `pd.DataFrame()` — a frame with no
columns at all — which `failed` models; a successful load yields the rows
(possibly zero of them, but with the CSV's columns present). -/
inductive Catalog where
  | failed
  | loaded (rows : List CatalogRow)
deriving DecidableEq

/-- The data rows of the catalog frame. -/
def Catalog.rows : Catalog → List CatalogRow
  | .failed => []
  | .loaded rs => rs

/-- `ProductCandidate` of `app/models/schemas.py`. -/
structure ProductCandidate where
  product_id : String
  title : String
  score : ℚ
  evidence : List String
deriving DecidableEq

/-- `⌊q⌋` in kernel-reducible form. -/
def ratFloor (q : ℚ) : ℤ :=
  q.num.fdiv q.den

/-- Python's `round` to an integer: round half to even. -/
def roundHalfEven (q : ℚ) : ℤ :=
  let f := ratFloor q
  let r := qSub q (f : ℚ)
  if r < Rat.divInt 1 2 then f
  else if Rat.divInt 1 2 < r then f + 1
  else if f % 2 = 0 then f else f + 1

/-- Python `round(q, 3)`. -/
def round3 (q : ℚ) : ℚ :=
  qDiv (roundHalfEven (qMul q 1000) : ℚ) 1000

/-- Python `f"{q:.2f}"` for the nonnegative scores that reach it. -/
def fmt2 (q : ℚ) : String :=
  let c := roundHalfEven (qMul q 100)
  let i := c / 100
  let f := c % 100
  toString i ++ "." ++ (if f < 10 then "0" else "") ++ toString f

/-- The three per-field token-set sub-scores of `find_matches`, each the
rapidfuzz score divided by 100. -/
def titleScore (q : String) (row : CatalogRow) : ℚ :=
  qDiv (token_set_ratio q (pyLower row.title)) 100

def modelScore (q : String) (row : CatalogRow) : ℚ :=
  qDiv (token_set_ratio q (pyLower row.model)) 100

def brandScore (q : String) (row : CatalogRow) : ℚ :=
  qDiv (token_set_ratio q (pyLower row.brand)) 100

/-- The weighted blend `title*W_title + model*W_model + brand*W_brand`. -/
def combinedScore (S : Settings) (q : String) (row : CatalogRow) : ℚ :=
  qAdd (qAdd (qMul (titleScore q row) S.title_weight) (qMul (modelScore q row) S.model_weight))
    (qMul (brandScore q row) S.brand_weight)

/-- The body of the per-row loop of `find_matches`: computes sub-scores,
evidence and the combined score, and keeps the row only when the combined
score reaches `min_confidence`.  `q` is the normalized OCR text,
`ocr_text` the raw one (used by the evidence fallback). -/
def matchCandidate (S : Settings) (ocr_text q : String) (row : CatalogRow) :
    Option ProductCandidate :=
  let ts := titleScore q row
  let ms := modelScore q row
  let bs := brandScore q row
  let combined := combinedScore S q row
  let ev :=
    (if Rat.divInt 3 5 < ts then ["Title match: " ++ row.title ++ " (" ++ fmt2 ts ++ ")"] else [])
      ++ (if Rat.divInt 3 5 < ms then ["Model match: " ++ row.model ++ " (" ++ fmt2 ms ++ ")"] else [])
      ++ (if Rat.divInt 3 5 < bs then ["Brand match: " ++ row.brand ++ " (" ++ fmt2 bs ++ ")"] else [])
  if S.min_confidence ≤ combined then
    some { product_id := row.product_id
           title := row.title
           score := round3 combined
           evidence := if ev.isEmpty then ["OCR: " ++ pyTake ocr_text 50] else ev }
  else none

/-- The candidate list in catalog iteration order, before sorting. -/
def candidateRows (S : Settings) (ocr_text : String) (rows : List CatalogRow) :
    List ProductCandidate :=
  rows.filterMap (matchCandidate S ocr_text (pyStrip (pyLower ocr_text)))

/-- Stable insertion for the descending-by-score sort: a candidate goes in
front of the first element whose score is not larger, so earlier input
elements stay in front of equal-scored later ones. -/
def insertCand (c : ProductCandidate) : List ProductCandidate → List ProductCandidate
  | [] => [c]
  | d :: ds => if d.score ≤ c.score then c :: d :: ds else d :: insertCand c ds

/-- Python's `candidates.sort(key=lambda x: x.score, reverse=True)`: the
stable descending sort (any stable sort computes the same list, so this
insertion sort is extensionally the library sort). -/
def sortCandidates : List ProductCandidate → List ProductCandidate
  | [] => []
  | c :: cs => insertCand c (sortCandidates cs)

/-- `MatcherService.find_matches`. -/
def find_matches (cat : Catalog) (S : Settings) (ocr_text : String) (top_k : Nat) :
    List ProductCandidate :=
  if ocr_text = "" || (Catalog.rows cat).isEmpty then []
  else (sortCandidates (candidateRows S ocr_text (Catalog.rows cat))).take top_k

/-- `MatcherService.validate_product_id`.  On a catalog whose load failed,
`self.catalog['product_id']` raises `KeyError` (the bare frame has no
columns); otherwise the membership test runs. -/
def validate_product_id (cat : Catalog) (product_id : String) : Except String Bool :=
  match cat with
  | .failed => .error "KeyError: product_id"
  | .loaded rows => .ok (rows.any (fun r => r.product_id == product_id))

/-! ## RAG service (`app/services/rag_service.py`) -/

/-- One chunk record `{text, product_id, source}` of `RAGService`. -/
structure Chunk where
  text : String
  product_id : String
  source : String
deriving DecidableEq

/-- The body of the loop of `RAGService._chunk_document`: the window of
`chunk_size` words starting at `i`, kept only when it has at least 20
words. -/
def chunkAt (cs : Nat) (words : List String) (pid src : String) (i : Nat) :
    Option Chunk :=
  let cw := (words.drop i).take cs
  if cw.length < 20 then none
  else some { text := joinSpace cw, product_id := pid, source := src }

/-- `_chunk_document` after the initial `content.split()`:
`for i in range(0, len(words), step)` with `step = chunk_size - overlap`,
keeping each window of at least 20 words.  `List.range' 0 m step` with
`m = ⌈len / step⌉` is exactly Python's `range(0, len, step)`.  (For
`step = 0` Python's `range` raises `ValueError`; here `m = 0`, and every
theorem below assumes `overlap < chunk_size`.) -/
def chunk_words (cs ov : Nat) (words : List String) (pid src : String) : List Chunk :=
  let step := cs - ov
  (List.range' 0 ((words.length + step - 1) / step) step).filterMap
    (chunkAt cs words pid src)

/-- `RAGService._chunk_document`. -/
def chunk_document (S : Settings) (content pid src : String) : List Chunk :=
  chunk_words S.chunk_size S.chunk_overlap (pySplit content) pid src

/-- The in-memory state of `RAGService` that `build_index` and `retrieve`
touch: `self.index` (`None` until a FAISS index is built; modelled
abstractly by its vector count) and `self.chunks`. -/
structure RAGState where
  index : Option Nat
  chunks : List Chunk
deriving DecidableEq

/-- The documents directory: `none` when `docs_dir` does not exist,
otherwise the `(stem, content)` of each `*.txt` file in glob order. -/
def DocsDir := Option (List (String × String))

/-- `RAGService.build_index`.  `self.chunks` is cleared first; a missing
directory or an empty chunk list returns early (`self.index` untouched);
otherwise a fresh FAISS index over all chunk embeddings replaces it.
(`_save_index` only touches the disk, which this state does not model.) -/
def build_index (st : RAGState) (S : Settings) (docs : DocsDir) : RAGState :=
  match docs with
  | none => { st with chunks := [] }
  | some ds =>
    let chunks := ds.flatMap (fun d => chunk_document S d.2 d.1 (d.1 ++ ".txt"))
    if chunks.isEmpty then { st with chunks := [] }
    else { index := some chunks.length, chunks := chunks }

/-- Truthiness of the `product_id` argument of `retrieve`: `None` and the
empty string are falsy. -/
def pidTruthy : Option String → Bool
  | none => false
  | some s => s ≠ ""

/-- Python `chunks[idx]` for an `int64` index: negative indices count from
the end; an out-of-range access raises `IndexError`. -/
def pyIndex (chunks : List Chunk) (idx : Int) : Except String Chunk :=
  let j : Int := if idx < 0 then idx + chunks.length else idx
  if h : 0 ≤ j ∧ j < chunks.length then
    .ok (chunks.get ⟨j.toNat, by omega⟩)
  else .error "IndexError"

/-- The result-collection loop of `retrieve`: walk the neighbor ids, skip
ids not below `len(self.chunks)`, skip chunks failing the `product_id`
filter, and stop as soon as `top_k` results are collected. -/
def retrieveLoop (chunks : List Chunk) (pid : Option String) (top_k : Nat) :
    List Int → List Chunk → Except String (List Chunk)
  | [], acc => .ok acc
  | idx :: rest, acc =>
    if idx < (chunks.length : Int) then
      match pyIndex chunks idx with
      | .error e => .error e
      | .ok chunk =>
        if pidTruthy pid && decide (chunk.product_id ≠ (pid.getD "")) then
          retrieveLoop chunks pid top_k rest acc
        else
          let acc' := acc ++ [chunk]
          if top_k ≤ acc'.length then .ok acc'
          else retrieveLoop chunks pid top_k rest acc'
    else retrieveLoop chunks pid top_k rest acc

/-- `RAGService.retrieve`.  The embedding of the query and the FAISS
nearest-neighbor search are abstracted into `search`: `search k` is the
id row `indices[0]` the index returns when asked for `k` neighbors.  Any
exception inside the `try` block is caught and turns into `[]`. -/
def retrieve (st : RAGState) (search : Nat → List Int) (product_id : Option String)
    (top_k : Nat) : List Chunk :=
  if st.index.isNone || st.chunks.isEmpty then []
  else
    let search_k := if pidTruthy product_id then top_k * 5 else top_k
    match retrieveLoop st.chunks product_id top_k (search search_k) [] with
    | .ok r => r
    | .error _ => []

/-! ## Derived notions used in statements -/

/-- The number of words two chunks share at their junction: the largest `j`
for which the last `j` words of `xs` are exactly the first `j` words of
`ys`. -/
def sharedOverlap (xs ys : List String) : Nat :=
  ((List.range (min xs.length ys.length + 1)).filter
    (fun j => decide (xs.drop (xs.length - j) = ys.take j))).foldr max 0

/-- The catalog row of end-to-end scenario 1 of the specification. -/
def iphoneRow : CatalogRow :=
  { product_id := "iphone-15-pro-max", title := "iPhone 15 Pro Max"
    model := "A3105", brand := "Apple" }

/-- 49 pairwise-distinct whitespace-free words. -/
def words49 : List String :=
  (List.range 49).map (fun n => toString n)

/-! # Theorems

## The kernel-reducible arithmetic is the arithmetic of `ℚ` -/

theorem qAdd_eq (a b : ℚ) : qAdd a b = a + b := by
  have ha : ((a.den : ℤ)) ≠ 0 := Int.natCast_ne_zero.mpr a.den_nz
  have hb : ((b.den : ℤ)) ≠ 0 := Int.natCast_ne_zero.mpr b.den_nz
  conv_rhs => rw [← Rat.num_divInt_den a, ← Rat.num_divInt_den b]
  rw [Rat.divInt_add_divInt _ _ ha hb, qAdd]

theorem qSub_eq (a b : ℚ) : qSub a b = a - b :=
  (Rat.sub_def' a b).symm

theorem qMul_eq (a b : ℚ) : qMul a b = a * b := by
  conv_rhs => rw [← Rat.num_divInt_den a, ← Rat.num_divInt_den b]
  rw [Rat.divInt_mul_divInt', qMul]

theorem qDiv_eq (a b : ℚ) : qDiv a b = a / b := by
  rcases eq_or_ne b 0 with rfl | hb
  · show Rat.divInt (a.num * (0 : ℚ).den) (a.den * (0 : ℚ).num) = a / 0
    norm_num [Rat.divInt_zero]
  · rw [div_eq_mul_inv, Rat.inv_def']
    conv_rhs => rw [← Rat.num_divInt_den a]
    rw [Rat.divInt_mul_divInt', qDiv]

theorem qMax_eq (a b : ℚ) : qMax a b = max a b :=
  (max_def a b).symm

theorem ratFloor_eq (q : ℚ) : ratFloor q = ⌊q⌋ := by
  rw [Rat.floor_def, ratFloor, Int.fdiv_eq_ediv _ (Int.natCast_nonneg _)]

/-! ## Retrieval lemmas -/

/-- `retrieve` short-circuits to `[]` when the index is `None` or the chunk
list is empty. -/
theorem retrieve_eq_nil_of_empty (st : RAGState) (search : Nat → List Int)
    (pid : Option String) (top_k : Nat) (h : st.index = none ∨ st.chunks = []) :
    retrieve st search pid top_k = [] := by
  rcases h with h | h <;> simp [retrieve, h]

/-- With a falsy `product_id` the collection loop ignores it entirely. -/
theorem retrieveLoop_pid_falsy (chunks : List Chunk) (top_k : Nat) :
    ∀ (l : List Int) (acc : List Chunk),
      retrieveLoop chunks (some "") top_k l acc = retrieveLoop chunks none top_k l acc := by
  intro l
  induction l with
  | nil => intro acc; rfl
  | cons idx rest ih =>
    intro acc
    simp only [retrieveLoop]
    have h1 : pidTruthy (some "") = false := rfl
    have h2 : pidTruthy none = false := rfl
    rw [h1, h2]
    simp only [Bool.false_and]
    split
    · cases pyIndex chunks idx
      · rfl
      · simp only [Bool.false_eq_true, if_false]
        split
        · rfl
        · exact ih _
    · exact ih _

/-- C2.  When catalog loading failed at construction, the matcher holds a
bare `pd.DataFrame()` with no columns, and `validate_product_id` does not
return `False`: `self.catalog['product_id']` raises `KeyError` for every
input (the claim's "always false, never raises" is what the code should
do, not what it does). -/
theorem validate_product_id_raises_on_failed_catalog (product_id : String) :
    validate_product_id .failed product_id = .error "KeyError: product_id" :=
  rfl

/-- C8.  If the FAISS index is uninitialized or the chunk sequence is
empty, `retrieve` returns `[]` (by the early guard, before any code that
could raise; the model's `retrieve` is total). -/
theorem retrieve_uninitialized_returns_empty (st : RAGState) (search : Nat → List Int)
    (pid : Option String) (top_k : Nat) (h : st.index = none ∨ st.chunks = []) :
    retrieve st search pid top_k = [] :=
  retrieve_eq_nil_of_empty st search pid top_k h

/-- Witness for C8 at a concrete state. -/
theorem retrieve_uninitialized_returns_empty_witness :
    (((⟨none, [⟨"t", "p", "s"⟩]⟩ : RAGState).index = none) ∨
        ((⟨none, [⟨"t", "p", "s"⟩]⟩ : RAGState).chunks = [])) ∧
      retrieve ⟨none, [⟨"t", "p", "s"⟩]⟩ (fun k => List.replicate k 0) (some "p") 5 = [] :=
  ⟨Or.inl rfl, retrieve_uninitialized_returns_empty _ _ _ _ (Or.inl rfl)⟩

/-- C10.  An empty-string `product_id` is falsy, so `retrieve` behaves
exactly as with no product filter: no chunk is skipped and only `top_k`
(not `5 * top_k`) neighbors are requested from the index. -/
theorem retrieve_empty_string_pid_is_unfiltered (st : RAGState) (search : Nat → List Int)
    (top_k : Nat) :
    retrieve st search (some "") top_k = retrieve st search none top_k := by
  simp only [retrieve]
  have h1 : pidTruthy (some "") = false := rfl
  have h2 : pidTruthy none = false := rfl
  rw [h1, h2, retrieveLoop_pid_falsy]

/-- C9 counterexample: after a successful build (index present, one chunk),
a rebuild over a document that yields zero chunks ("tiny doc" has 2 words,
below the 20-word floor) clears `self.chunks` but leaves the old FAISS
index object in `self.index` — the index is not left uninitialized. -/
theorem build_index_zero_chunks_stale_index_cex :
    (build_index ⟨some 1, [⟨"t", "p", "s"⟩]⟩ settings (some [("p", "tiny doc")])).chunks = [] ∧
    (build_index ⟨some 1, [⟨"t", "p", "s"⟩]⟩ settings (some [("p", "tiny doc")])).index = some 1 ∧
    some 1 ≠ (none : Option Nat) := by
  decide

/-- C9 (amended).  A `build_index` that produces zero chunks leaves
`self.chunks` empty and `self.index` exactly as it was (so `None` only if
no index was ever built), and every subsequent `retrieve` returns `[]`
because the chunk list is empty — it never throws. -/
theorem build_index_zero_chunks_amended (st : RAGState) (S : Settings) (docs : DocsDir)
    (search : Nat → List Int) (pid : Option String) (top_k : Nat)
    (h : (build_index st S docs).chunks = []) :
    (build_index st S docs).index = st.index ∧
    retrieve (build_index st S docs) search pid top_k = [] := by
  refine ⟨?_, retrieve_eq_nil_of_empty _ _ _ _ (Or.inr h)⟩
  match docs with
  | none => rfl
  | some ds =>
    by_cases hc : (ds.flatMap (fun d => chunk_document S d.2 d.1 (d.1 ++ ".txt"))).isEmpty
    · simp [build_index, hc]
    · exfalso
      simp only [build_index, if_neg hc] at h
      exact hc (by simp [h])

/-- Witness for C9 at a concrete prior state and document set. -/
theorem build_index_zero_chunks_amended_witness :
    ((build_index ⟨some 1, [⟨"t", "p", "s"⟩]⟩ settings (some [("p", "tiny doc")])).chunks = []) ∧
    ((build_index ⟨some 1, [⟨"t", "p", "s"⟩]⟩ settings (some [("p", "tiny doc")])).index
        = (⟨some 1, [⟨"t", "p", "s"⟩]⟩ : RAGState).index ∧
      retrieve (build_index ⟨some 1, [⟨"t", "p", "s"⟩]⟩ settings (some [("p", "tiny doc")]))
        (fun k => List.replicate k 0) (some "p") 3 = []) :=
  ⟨by decide, build_index_zero_chunks_amended _ _ _ _ _ _ (by decide)⟩

/-- Invariant of the collection loop of `retrieve` under a truthy product
filter: starting strictly below `top_k` with only matching chunks
collected, a normal exit yields only matching chunks and at most `top_k`
of them. -/
theorem retrieveLoop_ok_spec (chunks : List Chunk) (p : String) (hp : p ≠ "") (top_k : Nat) :
    ∀ (l : List Int) (acc r : List Chunk), (∀ c ∈ acc, c.product_id = p) →
      acc.length < top_k → retrieveLoop chunks (some p) top_k l acc = .ok r →
      (∀ c ∈ r, c.product_id = p) ∧ r.length ≤ top_k := by
  intro l
  induction l with
  | nil =>
    intro acc r hacc hlen heq
    simp only [retrieveLoop, Except.ok.injEq] at heq
    exact heq ▸ ⟨hacc, Nat.le_of_lt hlen⟩
  | cons idx rest ih =>
    intro acc r hacc hlen heq
    simp only [retrieveLoop] at heq
    split at heq
    · cases hpi : pyIndex chunks idx with
      | error e => rw [hpi] at heq; exact absurd heq (by simp)
      | ok chunk =>
        rw [hpi] at heq
        have hpt : pidTruthy (some p) = true := by simp [pidTruthy, hp]
        rw [hpt] at heq
        simp only [Bool.true_and] at heq
        split at heq
        · exact ih _ _ hacc hlen heq
        · rename_i hkeep
          have hcp : chunk.product_id = p := by
            simp only [Option.getD] at hkeep
            simpa using hkeep
          have hacc' : ∀ c ∈ acc ++ [chunk], c.product_id = p := by
            intro c hc
            rcases List.mem_append.mp hc with hc | hc
            · exact hacc c hc
            · rw [List.mem_singleton.mp hc]
              exact hcp
          split at heq
          · rename_i hfull
            simp only [Except.ok.injEq] at heq
            subst heq
            exact ⟨hacc', by simpa using Nat.succ_le_of_lt hlen⟩
          · rename_i hmore
            refine ih _ _ hacc' ?_ heq
            simp only [List.length_append, List.length_cons, List.length_nil] at hmore ⊢
            omega
    · exact ih _ _ hacc hlen heq

/-- C7.  With a non-empty `product_id`, every chunk `retrieve` returns
carries exactly that `product_id`, and (given the index contract that a
search for `k` neighbors returns at most `k` ids) at most `top_k` chunks
are returned. -/
theorem retrieve_pid_filter_and_cap (st : RAGState) (search : Nat → List Int) (p : String)
    (top_k : Nat) (hp : p ≠ "") (hs : ∀ k, (search k).length ≤ k) :
    (∀ c ∈ retrieve st search (some p) top_k, c.product_id = p) ∧
    (retrieve st search (some p) top_k).length ≤ top_k := by
  by_cases hg : (st.index.isNone || st.chunks.isEmpty) = true
  · simp [retrieve, hg]
  · simp only [retrieve, if_neg hg]
    match htk : top_k with
    | 0 =>
      have hk : (if pidTruthy (some p) then 0 * 5 else 0) = 0 := by split <;> rfl
      have hnil : search (if pidTruthy (some p) then 0 * 5 else 0) = [] := by
        rw [hk]
        exact List.eq_nil_of_length_eq_zero (Nat.le_zero.mp (hs 0))
      rw [hnil]
      simp [retrieveLoop]
    | tk + 1 =>
      cases hloop : retrieveLoop st.chunks (some p) (tk + 1)
          (search (if pidTruthy (some p) then (tk + 1) * 5 else tk + 1)) [] with
      | error e => simp [hloop]
      | ok r =>
        simp only [hloop]
        exact retrieveLoop_ok_spec st.chunks p hp (tk + 1) _ [] r (by simp)
          (Nat.succ_pos tk) hloop

/-- Witness for C7 at a concrete state, search function and filter. -/
theorem retrieve_pid_filter_and_cap_witness :
    (("p" : String) ≠ "" ∧ ∀ k, (([(0 : Int), 1].take k)).length ≤ k) ∧
    ((∀ c ∈ retrieve ⟨some 2, [⟨"t", "p", "s"⟩, ⟨"u", "q", "s"⟩]⟩
        (fun k => [0, 1].take k) (some "p") 1, c.product_id = "p") ∧
      (retrieve ⟨some 2, [⟨"t", "p", "s"⟩, ⟨"u", "q", "s"⟩]⟩
        (fun k => [0, 1].take k) (some "p") 1).length ≤ 1) :=
  ⟨⟨by decide, fun k => by simp⟩,
    retrieve_pid_filter_and_cap _ _ _ _ (by decide) (fun k => by simp)⟩

/-! ## Chunking lemmas -/

/-- A window below the 20-word floor (in particular any window starting in
the last 19 words, or past the end) produces no chunk. -/
theorem chunkAt_eq_none (cs : Nat) (words : List String) (pid src : String) (i : Nat)
    (h : words.length < i + 20) : chunkAt cs words pid src i = none := by
  simp only [chunkAt]
  split
  · rfl
  · rename_i hcon
    exact absurd (by simp only [List.length_take, List.length_drop]; omega) hcon

/-- A window of at least 20 words (which, for `20 ≤ cs`, is exactly one
starting at least 20 words before the end) produces its chunk. -/
theorem chunkAt_eq_some (cs : Nat) (words : List String) (pid src : String) (i : Nat)
    (hcs : 20 ≤ cs) (h : i + 20 ≤ words.length) :
    chunkAt cs words pid src i
      = some { text := joinSpace ((words.drop i).take cs), product_id := pid, source := src } := by
  simp only [chunkAt]
  split
  · rename_i hcon
    exact absurd hcon (by simp only [List.length_take, List.length_drop]; omega)
  · rfl

/-- Once a window start is within 20 words of the end, that window and all
later ones are discarded. -/
theorem chunk_range_nil (cs step : Nat) (words : List String) (pid src : String) :
    ∀ (m i : Nat), words.length < i + 20 →
      (List.range' i m step).filterMap (chunkAt cs words pid src) = [] := by
  intro m
  induction m with
  | zero => intro i _; rfl
  | succ m ih =>
    intro i h
    rw [List.range'_succ]
    simp only [List.filterMap_cons, chunkAt_eq_none cs words pid src i h]
    exact ih (i + step) (by omega)

/-- The `k`-th chunk produced from the window starts `i, i+step, …` is the
window at `i + k*step`, provided that window still has 20 words; the
hypothesis `words.length ≤ i + m*step` says the `m` starts cover the whole
word list, as Python's `range(0, len(words), step)` does. -/
theorem chunk_range_get (cs step : Nat) (words : List String) (pid src : String)
    (hcs : 20 ≤ cs) :
    ∀ (m i k : Nat), words.length ≤ i + m * step →
      ((List.range' i m step).filterMap (chunkAt cs words pid src))[k]? =
        if i + k * step + 20 ≤ words.length
        then some { text := joinSpace ((words.drop (i + k * step)).take cs)
                    product_id := pid, source := src }
        else none := by
  intro m
  induction m with
  | zero =>
    intro i k hm
    simp only [Nat.zero_mul, Nat.add_zero] at hm
    rw [List.range'_zero, List.filterMap_nil]
    rw [if_neg ?_]
    · simp
    · set K := k * step with hK
      omega
  | succ m ih =>
    intro i k hm
    rw [List.range'_succ]
    by_cases hi : i + 20 ≤ words.length
    · simp only [List.filterMap_cons, chunkAt_eq_some cs words pid src i hcs hi]
      match k with
      | 0 => simp [hi]
      | k + 1 =>
        simp only [List.getElem?_cons_succ]
        rw [ih (i + step) k (by rw [Nat.succ_mul] at hm; omega)]
        have harith : i + step + k * step = i + (k + 1) * step := by ring
        rw [harith]
    · simp only [List.filterMap_cons, chunkAt_eq_none cs words pid src i (by omega)]
      rw [chunk_range_nil cs step words pid src m (i + step) (by omega)]
      rw [if_neg ?_]
      · simp
      · set K := k * step with hK
        omega

/-- Position-wise description of `_chunk_document`'s output: the `k`-th
chunk is the `chunk_size`-word window at `k * stride`, present exactly
when that window reaches the 20-word floor. -/
theorem chunk_words_get (cs ov : Nat) (words : List String) (pid src : String)
    (hov : ov < cs) (hcs : 20 ≤ cs) (k : Nat) :
    (chunk_words cs ov words pid src)[k]? =
      if k * (cs - ov) + 20 ≤ words.length
      then some { text := joinSpace ((words.drop (k * (cs - ov))).take cs)
                  product_id := pid, source := src }
      else none := by
  have hstep : 0 < cs - ov := by omega
  have hcover : words.length ≤ 0 + ((words.length + (cs - ov) - 1) / (cs - ov)) * (cs - ov) := by
    have hdm := Nat.div_add_mod (words.length + (cs - ov) - 1) (cs - ov)
    have hmod := Nat.mod_lt (words.length + (cs - ov) - 1) hstep
    rw [Nat.zero_add, Nat.mul_comm]
    generalize hX : (cs - ov) * ((words.length + (cs - ov) - 1) / (cs - ov)) = X at hdm ⊢
    generalize hR : (words.length + (cs - ov) - 1) % (cs - ov) = R at hdm hmod
    omega
  have := chunk_range_get cs (cs - ov) words pid src hcs
    ((words.length + (cs - ov) - 1) / (cs - ov)) 0 k hcover
  simpa [chunk_words] using this

/-- C5.  A document of exactly 400 words, with the configured
`chunk_size = 300` and `chunk_overlap = 75`, yields exactly two chunks:
words 0–299 and words 225–399. -/
theorem chunk_words_400 (words : List String) (pid src : String) (h : words.length = 400) :
    chunk_words settings.chunk_size settings.chunk_overlap words pid src =
      [{ text := joinSpace (words.take 300), product_id := pid, source := src },
        { text := joinSpace (words.drop 225), product_id := pid, source := src }] := by
  have hcs : settings.chunk_size = 300 := rfl
  have hov : settings.chunk_overlap = 75 := rfl
  rw [hcs, hov]
  apply List.ext_getElem?
  intro k
  rw [chunk_words_get 300 75 words pid src (by omega) (by omega) k]
  match k with
  | 0 =>
    rw [if_pos (by omega)]
    simp
  | 1 =>
    rw [if_pos (by omega)]
    have hd : (words.drop 225).take 300 = words.drop 225 :=
      List.take_of_length_le (by simp [h])
    simp [hd]
  | k + 2 =>
    rw [if_neg (by omega)]
    simp

/-- Witness for C5 on a concrete 400-word document. -/
theorem chunk_words_400_witness :
    (List.replicate 400 "w").length = 400 ∧
    chunk_words settings.chunk_size settings.chunk_overlap (List.replicate 400 "w") "p" "p.txt" =
      [{ text := joinSpace ((List.replicate 400 "w").take 300), product_id := "p", source := "p.txt" },
        { text := joinSpace ((List.replicate 400 "w").drop 225), product_id := "p", source := "p.txt" }] :=
  ⟨List.length_replicate 400 "w", chunk_words_400 _ _ _ (List.length_replicate 400 "w")⟩

/-! ## Score bounds -/

theorem lcsLen_le_left : ∀ (s t : List Char), lcsLen s t ≤ s.length := by
  intro s
  induction s with
  | nil => intro t; simp [lcsLen]
  | cons a s ih =>
    intro t
    show lcsInner (lcsLen s) a t ≤ s.length + 1
    induction t with
    | nil => simp [lcsInner]
    | cons b t iht =>
      simp only [lcsInner]
      split
      · exact Nat.add_le_add_right (ih t) 1
      · exact Nat.max_le.mpr ⟨iht, Nat.le_trans (ih (b :: t)) (Nat.le_succ _)⟩

theorem lcsLen_le_right : ∀ (s t : List Char), lcsLen s t ≤ t.length := by
  intro s
  induction s with
  | nil => intro t; simp [lcsLen]
  | cons a s ih =>
    intro t
    show lcsInner (lcsLen s) a t ≤ t.length
    induction t with
    | nil => simp [lcsInner]
    | cons b t iht =>
      simp only [lcsInner]
      split
      · exact Nat.add_le_add_right (ih t) 1
      · exact Nat.max_le.mpr ⟨Nat.le_trans iht (Nat.le_succ _), ih (b :: t)⟩

theorem fuzzRatio_nonneg (s t : String) : 0 ≤ fuzzRatio s t := by
  rw [fuzzRatio]
  split
  · norm_num
  · rw [qDiv_eq, qMul_eq]
    positivity

theorem fuzzRatio_le_100 (s t : String) : fuzzRatio s t ≤ 100 := by
  rw [fuzzRatio]
  split
  · norm_num
  · rename_i hne
    rw [qDiv_eq, qMul_eq]
    have hpos : (0 : ℚ) < ((strLen s + strLen t : ℕ) : ℚ) := by
      exact_mod_cast Nat.pos_of_ne_zero hne
    rw [div_le_iff₀ hpos]
    have h1 : (lcsLen s.data t.data : ℚ) ≤ (strLen s : ℚ) := by
      exact_mod_cast lcsLen_le_left s.data t.data
    have h2 : (lcsLen s.data t.data : ℚ) ≤ (strLen t : ℚ) := by
      exact_mod_cast lcsLen_le_right s.data t.data
    push_cast
    linarith

theorem token_set_ratio_nonneg (s1 s2 : String) : 0 ≤ token_set_ratio s1 s2 := by
  rw [token_set_ratio]
  split
  · norm_num
  · dsimp only
    split
    · norm_num
    · split
      · exact fuzzRatio_nonneg _ _
      · rw [qMax_eq]
        exact le_trans (fuzzRatio_nonneg _ _) (le_max_left _ _)

theorem hundred_mul_one_sub_div_le_100 (x y : ℕ) :
    qMul 100 (qSub 1 (qDiv (x : ℚ) (y : ℚ))) ≤ 100 := by
  rw [qMul_eq, qSub_eq, qDiv_eq]
  have hd : (0 : ℚ) ≤ (x : ℚ) / (y : ℚ) := div_nonneg (Nat.cast_nonneg x) (Nat.cast_nonneg y)
  linarith

theorem token_set_ratio_le_100 (s1 s2 : String) : token_set_ratio s1 s2 ≤ 100 := by
  rw [token_set_ratio]
  split
  · norm_num
  · dsimp only
    split
    · norm_num
    · split
      · exact fuzzRatio_le_100 _ _
      · rw [qMax_eq, qMax_eq]
        exact max_le (fuzzRatio_le_100 _ _)
          (max_le (hundred_mul_one_sub_div_le_100 _ _) (hundred_mul_one_sub_div_le_100 _ _))

theorem titleScore_bounds (q : String) (row : CatalogRow) :
    0 ≤ titleScore q row ∧ titleScore q row ≤ 1 := by
  rw [titleScore, qDiv_eq]
  constructor
  · exact div_nonneg (token_set_ratio_nonneg _ _) (by norm_num)
  · rw [div_le_one (by norm_num : (0 : ℚ) < 100)]
    exact token_set_ratio_le_100 _ _

theorem modelScore_bounds (q : String) (row : CatalogRow) :
    0 ≤ modelScore q row ∧ modelScore q row ≤ 1 := by
  rw [modelScore, qDiv_eq]
  constructor
  · exact div_nonneg (token_set_ratio_nonneg _ _) (by norm_num)
  · rw [div_le_one (by norm_num : (0 : ℚ) < 100)]
    exact token_set_ratio_le_100 _ _

theorem brandScore_bounds (q : String) (row : CatalogRow) :
    0 ≤ brandScore q row ∧ brandScore q row ≤ 1 := by
  rw [brandScore, qDiv_eq]
  constructor
  · exact div_nonneg (token_set_ratio_nonneg _ _) (by norm_num)
  · rw [div_le_one (by norm_num : (0 : ℚ) < 100)]
    exact token_set_ratio_le_100 _ _

theorem settings_weights :
    settings.title_weight = 1/2 ∧ settings.model_weight = 3/10 ∧
    settings.brand_weight = 1/5 ∧ settings.min_confidence = 3/5 := by
  refine ⟨?_, ?_, ?_, ?_⟩ <;> norm_num [settings, Rat.divInt_eq_div]

/-- With the default weights (summing to 1) and sub-scores in [0, 1], the
blend stays at most 1. -/
theorem combinedScore_le_one (q : String) (row : CatalogRow) :
    combinedScore settings q row ≤ 1 := by
  obtain ⟨hw1, hw2, hw3, _⟩ := settings_weights
  rw [combinedScore, qAdd_eq, qAdd_eq, qMul_eq, qMul_eq, qMul_eq, hw1, hw2, hw3]
  obtain ⟨ht0, ht1⟩ := titleScore_bounds q row
  obtain ⟨hm0, hm1⟩ := modelScore_bounds q row
  obtain ⟨hb0, hb1⟩ := brandScore_bounds q row
  nlinarith

/-! ## Rounding bounds -/

theorem roundHalfEven_bounds (q : ℚ) :
    q - 1/2 ≤ (roundHalfEven q : ℚ) ∧ (roundHalfEven q : ℚ) ≤ q + 1/2 := by
  have hfl : ((ratFloor q : ℤ) : ℚ) ≤ q := by
    rw [ratFloor_eq]
    exact Int.floor_le q
  have hfu : q < ((ratFloor q : ℤ) : ℚ) + 1 := by
    rw [ratFloor_eq]
    exact Int.lt_floor_add_one q
  have h12 : Rat.divInt 1 2 = 1/2 := by
    rw [Rat.divInt_eq_div]
    norm_num
  simp only [roundHalfEven, qSub_eq, h12]
  split
  · rename_i hlt
    constructor <;> linarith
  · rename_i hge
    split
    · rename_i hgt
      push_cast
      constructor <;> linarith
    · rename_i hle
      have heq : q - (ratFloor q : ℚ) = 1/2 := le_antisymm (not_lt.mp hle) (not_lt.mp hge)
      split <;> push_cast <;> constructor <;> linarith

theorem round3_lower {q : ℚ} (h : 3/5 ≤ q) : 3/5 ≤ round3 q := by
  rw [round3, qDiv_eq, qMul_eq]
  obtain ⟨hl, _⟩ := roundHalfEven_bounds (q * 1000)
  have h599 : (599 : ℚ) < (roundHalfEven (q * 1000) : ℚ) := by linarith
  have h600 : (600 : ℤ) ≤ roundHalfEven (q * 1000) := by exact_mod_cast h599
  have h600' : (600 : ℚ) ≤ (roundHalfEven (q * 1000) : ℚ) := by exact_mod_cast h600
  rw [le_div_iff₀ (by norm_num : (0 : ℚ) < 1000)]
  linarith

theorem round3_upper {q : ℚ} (h : q ≤ 1) : round3 q ≤ 1 := by
  rw [round3, qDiv_eq, qMul_eq]
  obtain ⟨_, hu⟩ := roundHalfEven_bounds (q * 1000)
  have h1001 : (roundHalfEven (q * 1000) : ℚ) < 1001 := by linarith
  have h1000 : roundHalfEven (q * 1000) ≤ (1000 : ℤ) := by
    have : roundHalfEven (q * 1000) < (1001 : ℤ) := by exact_mod_cast h1001
    omega
  have h1000' : (roundHalfEven (q * 1000) : ℚ) ≤ 1000 := by exact_mod_cast h1000
  rw [div_le_one (by norm_num : (0 : ℚ) < 1000)]
  exact h1000'

/-! ## Sorting lemmas -/

theorem insertCand_perm (c : ProductCandidate) (l : List ProductCandidate) :
    List.Perm (insertCand c l) (c :: l) := by
  induction l with
  | nil => exact List.Perm.refl _
  | cons d ds ih =>
    simp only [insertCand]
    split
    · exact List.Perm.refl _
    · exact List.Perm.trans (List.Perm.cons d ih) (List.Perm.swap c d ds)

theorem sortCandidates_perm (l : List ProductCandidate) : List.Perm (sortCandidates l) l := by
  induction l with
  | nil => exact List.Perm.refl _
  | cons c cs ih =>
    simp only [sortCandidates]
    exact List.Perm.trans (insertCand_perm c (sortCandidates cs)) (List.Perm.cons c ih)

theorem insertCand_pairwise (c : ProductCandidate) (l : List ProductCandidate)
    (h : List.Pairwise (fun a b => b.score ≤ a.score) l) :
    List.Pairwise (fun a b => b.score ≤ a.score) (insertCand c l) := by
  induction l with
  | nil => simp [insertCand]
  | cons d ds ih =>
    simp only [insertCand]
    obtain ⟨hd, hds⟩ := List.pairwise_cons.mp h
    split
    · rename_i hdc
      refine List.Pairwise.cons ?_ h
      intro x hx
      rcases List.mem_cons.mp hx with rfl | hx
      · exact hdc
      · exact le_trans (hd x hx) hdc
    · rename_i hdc
      refine List.Pairwise.cons ?_ (ih hds)
      intro x hx
      rcases List.mem_cons.mp ((insertCand_perm c ds).mem_iff.mp hx) with rfl | hx
      · exact le_of_lt (not_le.mp hdc)
      · exact hd x hx

theorem sortCandidates_pairwise (l : List ProductCandidate) :
    List.Pairwise (fun a b => b.score ≤ a.score) (sortCandidates l) := by
  induction l with
  | nil => exact List.Pairwise.nil
  | cons c cs ih =>
    simp only [sortCandidates]
    exact insertCand_pairwise c _ ih

theorem insertCand_filter_eq (c : ProductCandidate) (l : List ProductCandidate) (s : ℚ)
    (h : c.score = s) :
    (insertCand c l).filter (fun d => decide (d.score = s))
      = c :: l.filter (fun d => decide (d.score = s)) := by
  induction l with
  | nil => simp [insertCand, h]
  | cons d ds ih =>
    simp only [insertCand]
    split
    · rw [List.filter_cons_of_pos (by simp [h])]
    · rename_i hdc
      have hds : ¬ (d.score = s) := by
        have hlt : s < d.score := h ▸ not_le.mp hdc
        exact fun hcon => absurd hcon (ne_of_gt hlt)
      rw [List.filter_cons_of_neg (by simp [hds]), ih,
        List.filter_cons_of_neg (by simp [hds])]

theorem insertCand_filter_ne (c : ProductCandidate) (l : List ProductCandidate) (s : ℚ)
    (h : ¬ (c.score = s)) :
    (insertCand c l).filter (fun d => decide (d.score = s))
      = l.filter (fun d => decide (d.score = s)) := by
  induction l with
  | nil => simp [insertCand, h]
  | cons d ds ih =>
    simp only [insertCand]
    split
    · rw [List.filter_cons_of_neg (by simp [h])]
    · by_cases hd : d.score = s
      · rw [List.filter_cons_of_pos (by simp [hd]), ih,
          List.filter_cons_of_pos (by simp [hd])]
      · rw [List.filter_cons_of_neg (by simp [hd]), ih,
          List.filter_cons_of_neg (by simp [hd])]

/-- Stability of the descending sort: within each score class the sorted
list preserves the input (catalog) order exactly. -/
theorem sortCandidates_filter (l : List ProductCandidate) (s : ℚ) :
    (sortCandidates l).filter (fun d => decide (d.score = s))
      = l.filter (fun d => decide (d.score = s)) := by
  induction l with
  | nil => rfl
  | cons c cs ih =>
    simp only [sortCandidates]
    by_cases hc : c.score = s
    · rw [insertCand_filter_eq c _ s hc, ih, List.filter_cons_of_pos (by simp [hc])]
    · rw [insertCand_filter_ne c _ s hc, ih, List.filter_cons_of_neg (by simp [hc])]

/-! ## The per-row candidate -/

theorem matchCandidate_some_spec (ocr q : String) (row : CatalogRow) (c : ProductCandidate)
    (h : matchCandidate settings ocr q row = some c) :
    settings.min_confidence ≤ combinedScore settings q row ∧
    c.score = round3 (combinedScore settings q row) := by
  simp only [matchCandidate] at h
  split at h
  · rename_i hconf
    exact ⟨hconf, by rw [← Option.some.inj h]⟩
  · exact absurd h (by simp)

theorem token_set_ratio_empty_left (t : String) : token_set_ratio "" t = 0 := by
  have h : sortedTokens "" = [] := rfl
  rw [token_set_ratio, h]
  simp

theorem candidateRows_empty_query (rows : List CatalogRow) :
    candidateRows settings "" rows = [] := by
  rw [candidateRows, List.filterMap_eq_nil_iff]
  intro row hrow
  have hq : pyStrip (pyLower "") = "" := rfl
  rw [hq]
  have h0 : combinedScore settings "" row = 0 := by
    have ht : titleScore "" row = 0 := by
      rw [titleScore, token_set_ratio_empty_left, qDiv_eq, zero_div]
    have hm : modelScore "" row = 0 := by
      rw [modelScore, token_set_ratio_empty_left, qDiv_eq, zero_div]
    have hb : brandScore "" row = 0 := by
      rw [brandScore, token_set_ratio_empty_left, qDiv_eq, zero_div]
    rw [combinedScore, qAdd_eq, qAdd_eq, qMul_eq, qMul_eq, qMul_eq, ht, hm, hb]
    ring
  have hmc : settings.min_confidence = 3/5 := settings_weights.2.2.2
  simp only [matchCandidate, h0]
  rw [if_neg (by rw [hmc]; norm_num)]

/-- C3.  With the default configuration, every candidate `find_matches`
returns has `0.6 ≤ score ≤ 1`; the returned sequence is sorted
non-increasing by score, is the `top_k`-prefix of the stable descending
sort of the per-row candidates in catalog iteration order, and that sort
breaks ties by catalog order (each score class is returned exactly in
catalog order). -/
theorem find_matches_bounded_sorted_stable (cat : Catalog) (ocr : String) (top_k : Nat) :
    settings.min_confidence = 3/5 ∧
    (∀ c ∈ find_matches cat settings ocr top_k,
      settings.min_confidence ≤ c.score ∧ c.score ≤ 1) ∧
    List.Pairwise (fun a b => b.score ≤ a.score) (find_matches cat settings ocr top_k) ∧
    find_matches cat settings ocr top_k
      = (sortCandidates (candidateRows settings ocr (Catalog.rows cat))).take top_k ∧
    ∀ s : ℚ,
      (sortCandidates (candidateRows settings ocr (Catalog.rows cat))).filter
          (fun c => decide (c.score = s))
        = (candidateRows settings ocr (Catalog.rows cat)).filter
          (fun c => decide (c.score = s)) := by
  have hmc : settings.min_confidence = 3/5 := settings_weights.2.2.2
  refine ⟨hmc, ?_, ?_, ?_, fun s => sortCandidates_filter _ s⟩
  · intro c hc
    have hc1 : c ∈ sortCandidates (candidateRows settings ocr (Catalog.rows cat)) := by
      rw [find_matches] at hc
      split at hc
      · cases hc
      · exact List.mem_of_mem_take hc
    obtain ⟨row, hrow, hmc2⟩ := List.mem_filterMap.mp ((sortCandidates_perm _).mem_iff.mp hc1)
    obtain ⟨hconf, hscore⟩ := matchCandidate_some_spec _ _ _ _ hmc2
    constructor
    · rw [hscore, hmc]
      exact round3_lower (hmc ▸ hconf)
    · rw [hscore]
      exact round3_upper (combinedScore_le_one _ _)
  · rw [find_matches]
    split
    · exact List.Pairwise.nil
    · exact List.Pairwise.sublist (List.take_sublist _ _) (sortCandidates_pairwise _)
  · rw [find_matches]
    split
    · rename_i hguard
      simp only [Bool.or_eq_true, decide_eq_true_eq, List.isEmpty_iff] at hguard
      have hnil : candidateRows settings ocr (Catalog.rows cat) = [] := by
        rcases hguard with h | h
        · subst h
          exact candidateRows_empty_query _
        · rw [h]
          rfl
      rw [hnil]
      simp [sortCandidates]
    · rfl

/-- C4 counterexample: a returned candidate whose `score`, `round(blend, 3)
= 0.836`, differs from the exact blend `46/55 = 0.83636…`. -/
theorem find_matches_score_not_exact_blend_cex :
    (find_matches
        (.loaded [{ product_id := "p1", title := "iphone 15 pro max", model := "15", brand := "apple" }])
        settings "iphone 15 pro max" 3).map (fun c => c.score) = [Rat.divInt 209 250] ∧
    combinedScore settings "iphone 15 pro max"
        { product_id := "p1", title := "iphone 15 pro max", model := "15", brand := "apple" }
      = Rat.divInt 46 55 ∧
    Rat.divInt 209 250 ≠ Rat.divInt 46 55 := by
  decide

/-- C4 (amended).  Every candidate `find_matches` returns comes from a
catalog row, and its `score` is the weighted blend of the row's three
token-set sub-scores (each in [0, 1]) rounded to 3 decimal places —
`round(combined_score, 3)`, not the exact blend. -/
theorem find_matches_score_rounded_blend (cat : Catalog) (ocr : String) (top_k : Nat)
    (c : ProductCandidate) (hc : c ∈ find_matches cat settings ocr top_k) :
    ∃ row ∈ Catalog.rows cat,
      c.score = round3 (combinedScore settings (pyStrip (pyLower ocr)) row) ∧
      0 ≤ titleScore (pyStrip (pyLower ocr)) row ∧ titleScore (pyStrip (pyLower ocr)) row ≤ 1 ∧
      0 ≤ modelScore (pyStrip (pyLower ocr)) row ∧ modelScore (pyStrip (pyLower ocr)) row ≤ 1 ∧
      0 ≤ brandScore (pyStrip (pyLower ocr)) row ∧ brandScore (pyStrip (pyLower ocr)) row ≤ 1 := by
  have hc1 : c ∈ sortCandidates (candidateRows settings ocr (Catalog.rows cat)) := by
    rw [find_matches] at hc
    split at hc
    · cases hc
    · exact List.mem_of_mem_take hc
  obtain ⟨row, hrow, hmc2⟩ := List.mem_filterMap.mp ((sortCandidates_perm _).mem_iff.mp hc1)
  obtain ⟨-, hscore⟩ := matchCandidate_some_spec _ _ _ _ hmc2
  exact ⟨row, hrow, hscore, (titleScore_bounds _ _).1, (titleScore_bounds _ _).2,
    (modelScore_bounds _ _).1, (modelScore_bounds _ _).2,
    (brandScore_bounds _ _).1, (brandScore_bounds _ _).2⟩

/-- Witness for C4 on a concrete catalog, query and returned candidate. -/
theorem find_matches_score_rounded_blend_witness :
    (({ product_id := "p", title := "x", score := 1,
        evidence := ["Title match: x (1.00)", "Model match: x (1.00)", "Brand match: x (1.00)"] }
          : ProductCandidate)
        ∈ find_matches (.loaded [{ product_id := "p", title := "x", model := "x", brand := "x" }])
            settings "x" 3) ∧
    (∃ row ∈ Catalog.rows (.loaded [{ product_id := "p", title := "x", model := "x", brand := "x" }]),
      ({ product_id := "p", title := "x", score := 1,
          evidence := ["Title match: x (1.00)", "Model match: x (1.00)", "Brand match: x (1.00)"] }
            : ProductCandidate).score
          = round3 (combinedScore settings (pyStrip (pyLower "x")) row) ∧
      0 ≤ titleScore (pyStrip (pyLower "x")) row ∧ titleScore (pyStrip (pyLower "x")) row ≤ 1 ∧
      0 ≤ modelScore (pyStrip (pyLower "x")) row ∧ modelScore (pyStrip (pyLower "x")) row ≤ 1 ∧
      0 ≤ brandScore (pyStrip (pyLower "x")) row ∧ brandScore (pyStrip (pyLower "x")) row ≤ 1) :=
  ⟨by decide,
    find_matches_score_rounded_blend
      (.loaded [{ product_id := "p", title := "x", model := "x", brand := "x" }]) "x" 3
      { product_id := "p", title := "x", score := 1,
        evidence := ["Title match: x (1.00)", "Model match: x (1.00)", "Brand match: x (1.00)"] }
      (by decide)⟩

theorem le_foldr_max {l : List Nat} {a : Nat} (h : a ∈ l) : a ≤ l.foldr max 0 := by
  induction l with
  | nil => cases h
  | cons x xs ih =>
    rcases List.mem_cons.mp h with rfl | h
    · exact Nat.le_max_left _ _
    · exact Nat.le_trans (ih h) (Nat.le_max_right _ _)

theorem foldr_max_le {l : List Nat} {b : Nat} (h : ∀ x ∈ l, x ≤ b) : l.foldr max 0 ≤ b := by
  induction l with
  | nil => exact Nat.zero_le b
  | cons x xs ih =>
    exact Nat.max_le.mpr ⟨h x (List.mem_cons_self x xs), ih (fun y hy => h y (List.mem_cons_of_mem x hy))⟩

set_option maxRecDepth 20000 in
/-- C6 counterexample: chunking 49 distinct words with `chunk_size = 30`,
`overlap = 28` (stride 2) produces 15 chunks; the consecutive pair at
positions 12 and 13 — neither of which is the final chunk, position 14 —
are the truncated windows at word 24 (25 words) and word 26 (23 words),
and they share only 23 words, not the configured 28. -/
theorem chunk_words_overlap_cex :
    (chunk_words 30 28 words49 "p" "s").length = 15 ∧
    (chunk_words 30 28 words49 "p" "s")[12]?
      = some { text := joinSpace (words49.drop 24), product_id := "p", source := "s" } ∧
    (chunk_words 30 28 words49 "p" "s")[13]?
      = some { text := joinSpace (words49.drop 26), product_id := "p", source := "s" } ∧
    words49.Nodup ∧
    sharedOverlap (words49.drop 24) (words49.drop 26) = 23 ∧
    (23 : Nat) ≠ 28 := by
  decide

/-- Two full-stride windows of a duplicate-free word list share exactly
`ov` words: the suffix/prefix agreement of length `ov` exists by
construction, and (by injectivity of positions in a `Nodup` list) no
longer agreement is possible. -/
theorem window_sharedOverlap (words : List String) (a cs ov : Nat)
    (hov : ov < cs) (hfull : a + cs ≤ words.length) (hnd : words.Nodup) :
    sharedOverlap ((words.drop a).take cs) ((words.drop (a + (cs - ov))).take cs) = ov := by
  set n := words.length with hn
  set A := (words.drop a).take cs with hA
  set B := (words.drop (a + (cs - ov))).take cs with hB
  have hAlen : A.length = cs := by
    rw [hA]
    simp only [List.length_take, List.length_drop]
    omega
  have hBlen : B.length = min cs (n - (a + (cs - ov))) := by
    rw [hB]
    simp only [List.length_take, List.length_drop]
  have hBov : ov ≤ B.length := by
    rw [hBlen]
    omega
  have hPov : A.drop (A.length - ov) = B.take ov := by
    rw [hA, hB, hAlen, List.drop_take, List.drop_drop, List.take_take]
    congr 1
    omega
  have hkey : ∀ j, j ≤ min A.length B.length → A.drop (A.length - j) = B.take j →
      j = 0 ∨ j = ov := by
    intro j hj hPj
    rcases Nat.eq_zero_or_pos j with h0 | hpos
    · exact Or.inl h0
    right
    have hjcs : j ≤ cs := by omega
    have hL : A.drop (A.length - j) = (words.drop (a + (cs - j))).take j := by
      rw [hA, hAlen, List.drop_take, List.drop_drop]
      congr 1
      omega
    have hR : B.take j = (words.drop (a + (cs - ov))).take j := by
      rw [hB, List.take_take]
      congr 1
      omega
    rw [hL, hR] at hPj
    have h0 : words[a + (cs - j)]? = words[a + (cs - ov)]? := by
      have := congrArg (fun l => l[0]?) hPj
      simpa [List.getElem?_take_of_lt hpos, List.getElem?_drop] using this
    have hlt : a + (cs - j) < n := by omega
    have := List.getElem?_inj hlt hnd h0
    omega
  rw [sharedOverlap]
  apply Nat.le_antisymm
  · apply foldr_max_le
    intro x hx
    rcases List.mem_filter.mp hx with ⟨hxr, hxp⟩
    have hxle : x ≤ min A.length B.length := by
      have := List.mem_range.mp hxr
      omega
    have := hkey x hxle (of_decide_eq_true (by simpa using hxp))
    omega
  · apply le_foldr_max
    refine List.mem_filter.mpr ⟨List.mem_range.mpr (by omega), ?_⟩
    simpa using hPov

/-- C6 (amended).  For `o < s`, `20 ≤ s`, and any two consecutive chunks
of `_chunk_document`, both chunks clear the 20-word floor, and whenever
the earlier chunk is a full window of exactly `s` words its last `o`
words are exactly the first `o` words of the next chunk — on a
duplicate-free document the two windows share exactly `o` words.  (When
the earlier chunk is itself a truncated tail window — possible only if
`s < 2*o - 19`ish configurations put several sub-`s` windows above the
floor — the shared count can be smaller, as the counterexample shows, even
for a pair not involving the final chunk.) -/
theorem chunk_words_overlap (words : List String) (cs ov : Nat) (pid src : String)
    (hov : ov < cs) (hcs : 20 ≤ cs) (k : Nat)
    (h : (chunk_words cs ov words pid src)[k + 1]? ≠ none) :
    (chunk_words cs ov words pid src)[k]?
        = some { text := joinSpace ((words.drop (k * (cs - ov))).take cs)
                 product_id := pid, source := src } ∧
    (chunk_words cs ov words pid src)[k + 1]?
        = some { text := joinSpace ((words.drop ((k + 1) * (cs - ov))).take cs)
                 product_id := pid, source := src } ∧
    20 ≤ ((words.drop (k * (cs - ov))).take cs).length ∧
    20 ≤ ((words.drop ((k + 1) * (cs - ov))).take cs).length ∧
    (((words.drop (k * (cs - ov))).take cs).length = cs →
      ((words.drop (k * (cs - ov))).take cs).drop (cs - ov)
          = ((words.drop ((k + 1) * (cs - ov))).take cs).take ov ∧
      (words.Nodup →
        sharedOverlap ((words.drop (k * (cs - ov))).take cs)
          ((words.drop ((k + 1) * (cs - ov))).take cs) = ov)) := by
  have hg1 := chunk_words_get cs ov words pid src hov hcs (k + 1)
  have hg0 := chunk_words_get cs ov words pid src hov hcs k
  by_cases hc1 : (k + 1) * (cs - ov) + 20 ≤ words.length
  case neg =>
    rw [hg1, if_neg hc1] at h
    exact absurd rfl h
  have hmono : k * (cs - ov) ≤ (k + 1) * (cs - ov) :=
    Nat.mul_le_mul_right (cs - ov) (Nat.le_succ k)
  have hc0 : k * (cs - ov) + 20 ≤ words.length :=
    Nat.le_trans (Nat.add_le_add_right hmono 20) hc1
  refine ⟨by rw [hg0, if_pos hc0], by rw [hg1, if_pos hc1], ?_, ?_, ?_⟩
  · simp only [List.length_take, List.length_drop]
    set K := k * (cs - ov) with hK
    omega
  · simp only [List.length_take, List.length_drop]
    set K1 := (k + 1) * (cs - ov) with hK1
    omega
  · intro hfull
    have hfull' : k * (cs - ov) + cs ≤ words.length := by
      simp only [List.length_take, List.length_drop] at hfull
      set K := k * (cs - ov) with hK
      omega
    constructor
    · rw [List.drop_take, List.drop_drop, List.take_take]
      congr 1
      · omega
      · congr 1
        exact (Nat.succ_mul k (cs - ov)).symm
    · intro hnd
      have hso := window_sharedOverlap words (k * (cs - ov)) cs ov hov hfull' hnd
      rw [Nat.succ_mul]
      exact hso

set_option maxRecDepth 20000 in
/-- Witness for C6 on a concrete 400-word document at the pair (0, 1). -/
theorem chunk_words_overlap_witness :
    ((chunk_words 300 75 (List.replicate 400 "w") "p" "s")[0 + 1]? ≠ none) ∧
    ((chunk_words 300 75 (List.replicate 400 "w") "p" "s")[0]?
        = some { text := joinSpace (((List.replicate 400 "w").drop (0 * (300 - 75))).take 300)
                 product_id := "p", source := "s" } ∧
      (chunk_words 300 75 (List.replicate 400 "w") "p" "s")[0 + 1]?
        = some { text := joinSpace (((List.replicate 400 "w").drop ((0 + 1) * (300 - 75))).take 300)
                 product_id := "p", source := "s" } ∧
      20 ≤ (((List.replicate 400 "w").drop (0 * (300 - 75))).take 300).length ∧
      20 ≤ (((List.replicate 400 "w").drop ((0 + 1) * (300 - 75))).take 300).length ∧
      ((((List.replicate 400 "w").drop (0 * (300 - 75))).take 300).length = 300 →
        (((List.replicate 400 "w").drop (0 * (300 - 75))).take 300).drop (300 - 75)
            = (((List.replicate 400 "w").drop ((0 + 1) * (300 - 75))).take 300).take 75 ∧
        ((List.replicate 400 "w").Nodup →
          sharedOverlap (((List.replicate 400 "w").drop (0 * (300 - 75))).take 300)
            (((List.replicate 400 "w").drop ((0 + 1) * (300 - 75))).take 300) = 75))) :=
  ⟨by decide, chunk_words_overlap (List.replicate 400 "w") 300 75 "p" "s"
    (by omega) (by omega) 0 (by decide)⟩

/-- C1 counterexample: on a catalog holding exactly the scenario-1 entry,
the query `"iphone 15 pro max"` returns no candidate at all (so in
particular not that entry with score ≥ 0.9). -/
theorem find_matches_scenario1_cex :
    find_matches (.loaded [iphoneRow]) settings "iphone 15 pro max" 3 = [] := by
  decide

/-- C1 (amended).  On that catalog and query the title sub-score is a full
1.0, but the combined score is `13/22 ≈ 0.591`, below the 0.6
`min_confidence` floor, so `find_matches` filters the entry out and
returns the empty list — there is no top candidate and no score ≥ 0.9. -/
theorem find_matches_scenario1_amended :
    token_set_ratio "iphone 15 pro max" (pyLower iphoneRow.title) = 100 ∧
    titleScore "iphone 15 pro max" iphoneRow = 1 ∧
    combinedScore settings "iphone 15 pro max" iphoneRow = Rat.divInt 13 22 ∧
    ¬ (settings.min_confidence ≤ Rat.divInt 13 22) ∧
    find_matches (.loaded [iphoneRow]) settings "iphone 15 pro max" 3 = [] := by
  decide

end ProductIntel
